import Mathlib

/-!
Shallow embedding of `plan/refiner.go`: the predicate-to-range refinement
stage of the query planner.  Pure data is translated into inductive types,
the classifier functions (`check`, `newCheck`), the predicate splitter
(`detachConditions`) and the range-building drivers (`buildIndexRange`,
`buildTableRange`, `buildNewTableRange`, `buildSelection`, `refine`) are
translated into Lean functions.  The `rangeBuilder` value algebra lives in
a different file of the repository and is kept abstract here: the drivers
are parameterised over its operations.  A Go `bool` function that can
panic (out-of-bounds indexing) is modelled as `Option Bool`, with `none`
standing for the runtime panic.
-/

/-- Literal values of the external value domain (`types.Datum`).  `vnull`
is the zero datum (the minimal value), `vmax` is `types.MaxValueDatum()`,
`vbad` stands for a datum that the external coercion cannot turn into a
string. -/
inductive Val where
  | vnull
  | vmax
  | vbad
  | vint (n : Int)
  | vstr (s : String)
deriving DecidableEq

/-- One boundary of an interval, `rangePoint` of the range builder file.
Fields default to the Go zero value, as in the composite literals of the
source. -/
structure rangePoint where
  value : Val := .vnull
  excl : Bool := false
  start : Bool := false
deriving DecidableEq

/-- `fullRange`, refiner.go lines 57-60. -/
def fullRange : List rangePoint :=
  [{ start := true }, { value := .vmax }]

/-- `TableRange`: one integer interval over the handle space. -/
structure TableRange where
  LowVal : Int
  HighVal : Int
deriving DecidableEq

/-- `IndexRange`: one interval over a composite index key. -/
structure IndexRange where
  LowVal : List Val
  HighVal : List Val
  LowExclude : Bool := false
  HighExclude : Bool := false
deriving DecidableEq

/-- `math.MinInt64`. -/
def minInt64 : Int := -9223372036854775808

/-- `math.MaxInt64`. -/
def maxInt64 : Int := 9223372036854775807

/-- Errors are opaque values; `errors.Trace` is the identity in this model. -/
abbrev Err := String

/-- Comparison opcodes of `parser/opcode` used by the classifier; `onot` is
`opcode.Not`, `oother` stands for every further opcode, none of which is
matched by the classifier. -/
inductive Opcode where
  | orOr
  | andAnd
  | eq
  | ne
  | ge
  | gt
  | le
  | lt
  | onot
  | oother
deriving DecidableEq

/-- The older AST predicate representation (`ast.ExprNode`), restricted to
the constructors and fields the refiner reads.  Names are the lower-cased
`CIStr.L` forms that every comparison in the source uses.  `patternIn`
carries `hasSel` for the Go test `x.Sel != nil`. -/
inductive ExprNode where
  | binaryOperation (op : Opcode) (l r : ExprNode)
  | betweenExpr (ex left right : ExprNode)
  | columnNameExpr (tblName colName : String)
  | isNullExpr (ex : ExprNode)
  | isTruthExpr (ex : ExprNode)
  | parenthesesExpr (ex : ExprNode)
  | patternIn (ex : ExprNode) (list : List ExprNode) (hasSel : Bool) (neg : Bool)
  | patternLike (ex pattern : ExprNode) (neg : Bool)
  | unaryOperation (op : Opcode) (ex : ExprNode)
  | valueExpr (v : Option Val)

/-- Modelled from the spec: `ExprNode.GetValue` (package `ast`, not among
the sources) extracts the literal value of a compile-time literal node;
the Go `nil` interface result is `none`. -/
def getValue : ExprNode → Option Val
  | .valueExpr v => v
  | _ => none

/-- Modelled from the spec: `types.ToString` (package `util/types`, not
among the sources) coerces a literal value to a string and can fail. -/
def typesToString : Val → Except Unit String
  | .vstr s => .ok s
  | .vint n => .ok (toString n)
  | _ => .error ()

mutual
/-- Modelled from the spec: `ast.IsPreEvaluable` (package `ast`, not among
the sources) tests whether a node is a compile-time-evaluable literal
expression, i.e. contains no column reference and no subquery. -/
def isPreEvaluable : ExprNode → Bool
  | .binaryOperation _ l r => isPreEvaluable l && isPreEvaluable r
  | .betweenExpr ex left right =>
      isPreEvaluable ex && isPreEvaluable left && isPreEvaluable right
  | .columnNameExpr _ _ => false
  | .isNullExpr ex => isPreEvaluable ex
  | .isTruthExpr ex => isPreEvaluable ex
  | .parenthesesExpr ex => isPreEvaluable ex
  | .patternIn ex list hasSel _ =>
      !hasSel && isPreEvaluable ex && isPreEvaluableList list
  | .patternLike ex pattern _ => isPreEvaluable ex && isPreEvaluable pattern
  | .unaryOperation _ ex => isPreEvaluable ex
  | .valueExpr _ => true

/-- List form of `isPreEvaluable`, for the operand list of `IN`. -/
def isPreEvaluableList : List ExprNode → Bool
  | [] => true
  | e :: rest => isPreEvaluable e && isPreEvaluableList rest
end

/-- Index metadata (`model.IndexInfo`), restricted to the ordered
lower-cased column names the checker reads. -/
structure IndexInfo where
  Columns : List String
deriving DecidableEq

/-- Column metadata (`model.ColumnInfo`): lower-cased name plus the
`mysql.PriKeyFlag` bit of `Flag`. -/
structure ColumnInfo where
  Name : String
  priKeyFlag : Bool
deriving DecidableEq

/-- Table metadata (`model.TableInfo`), restricted to what the refiner
reads. -/
structure TableInfo where
  Name : String
  PKIsHandle : Bool
  Columns : List ColumnInfo
deriving DecidableEq

/-- `conditionChecker`, refiner.go lines 165-171. -/
structure conditionChecker where
  tableName : String
  idx : Option IndexInfo
  columnOffset : Nat
  pkName : String
deriving DecidableEq

/-- `conditionChecker.checkColumnExpr`, refiner.go lines 246-261.  The Go
source indexes `c.idx.Columns[c.columnOffset]`; the indexed-column name is
read here with `getD`, a difference visible only for an offset past the
end of the index, which no caller produces. -/
def checkColumnExpr (c : conditionChecker) : ExprNode → Bool
  | .columnNameExpr tbl col =>
      if tbl == c.tableName then
        if c.pkName == "" then
          match c.idx with
          | some idx => col == idx.Columns.getD c.columnOffset ""
          | none => true
        else c.pkName == col
      else false
  | _ => false

/-- `conditionChecker.check`, refiner.go lines 173-228, with the body of
`conditionChecker.checkBinaryOperation` (lines 230-244) inlined at the
`BinaryOperationExpr` case so that the recursion is structural.  The
result is `Option Bool`: `none` models the Go runtime panic raised by the
byte access `patternStr[0]` when the LIKE pattern is the empty string.
The `&&` of the Go source short-circuits, which the nested match keeps. -/
def check (c : conditionChecker) : ExprNode → Option Bool
  | .binaryOperation op l r =>
      match op with
      | .orOr =>
          match check c l with
          | none => none
          | some false => some false
          | some true => check c r
      | .andAnd =>
          match check c l with
          | none => none
          | some false => some false
          | some true => check c r
      | .eq | .ne | .ge | .gt | .le | .lt =>
          if isPreEvaluable l then some (checkColumnExpr c r)
          else if isPreEvaluable r then some (checkColumnExpr c l)
          else some false
      | _ => some false
  | .betweenExpr ex left right =>
      some (isPreEvaluable left && isPreEvaluable right && checkColumnExpr c ex)
  | .columnNameExpr tbl col => some (checkColumnExpr c (.columnNameExpr tbl col))
  | .isNullExpr ex => some (checkColumnExpr c ex)
  | .isTruthExpr ex => some (checkColumnExpr c ex)
  | .parenthesesExpr ex => check c ex
  | .patternIn ex list hasSel neg =>
      if hasSel || neg then some false
      else if !checkColumnExpr c ex then some false
      else some (isPreEvaluableList list)
  | .patternLike ex pattern neg =>
      if neg then some false
      else if !checkColumnExpr c ex then some false
      else if !isPreEvaluable pattern then some false
      else
        match getValue pattern with
        | none => some false
        | some v =>
          match typesToString v with
          | .error _ => some false
          | .ok patternStr =>
            match patternStr.data with
            | [] => none
            | firstChar :: _ => some (firstChar != '%' && firstChar != '.')
  | .unaryOperation _ _ => some false
  | .valueExpr _ => some false

/-- `conditionChecker.checkBinaryOperation`, refiner.go lines 230-244, as
the `BinaryOperationExpr` case of `check`. -/
def checkBinaryOperation (c : conditionChecker) (op : Opcode) (l r : ExprNode) :
    Option Bool :=
  check c (.binaryOperation op l r)

/-- The newer canonicalized scalar-function predicate representation
(`expression.Expression`), restricted to the variants and fields the
refiner reads: scalar functions carry the lower-cased `FuncName.L` and
the argument list, columns carry `TblName.L` and `ColName.L`, constants
carry their literal value. -/
inductive Expression where
  | scalarFunction (funcName : String) (args : List Expression)
  | column (tblName colName : String)
  | constant (v : Option Val)

/-- `conditionChecker.checkColumn`, refiner.go lines 296-311.  The index
access `c.idx.Columns[c.columnOffset]` is read with `getD` as in
`checkColumnExpr`. -/
def checkColumn (c : conditionChecker) : Expression → Bool
  | .column tbl col =>
      if tbl == c.tableName then
        if c.pkName == "" then
          match c.idx with
          | some idx => col == idx.Columns.getD c.columnOffset ""
          | none => true
        else c.pkName == col
      else false
  | _ => false

/-- The comparison case of `conditionChecker.checkScalarFunction`,
refiner.go lines 281-287: the two sides of `=`,`≠`,`≥`,`>`,`≤`,`<`. -/
def cmpArgsCheck (c : conditionChecker) (a b : Expression) : Bool :=
  match a with
  | .constant _ => checkColumn c b
  | _ =>
    match b with
    | .constant _ => checkColumn c a
    | _ => false

/-- `conditionChecker.newCheck`, refiner.go lines 263-273, with the body
of `conditionChecker.checkScalarFunction` (lines 275-294) inlined at the
`ScalarFunction` case so that the recursion is structural.  The string
literals stand for the `ast` function-name constants that
`scalar.FuncName.L` is compared with.  The Go source indexes
`scalar.Args[0]` and `scalar.Args[1]`; argument lists are matched
positionally here, with lists too short for their function name falling
to the default `false` (such a value never reaches the checker). -/
def newCheck (c : conditionChecker) : Expression → Bool
  | .scalarFunction funcName args =>
      match funcName, args with
      | "or", a :: b :: _ => newCheck c a && newCheck c b
      | "and", a :: b :: _ => newCheck c a && newCheck c b
      | "eq", a :: b :: _ => cmpArgsCheck c a b
      | "ne", a :: b :: _ => cmpArgsCheck c a b
      | "ge", a :: b :: _ => cmpArgsCheck c a b
      | "gt", a :: b :: _ => cmpArgsCheck c a b
      | "le", a :: b :: _ => cmpArgsCheck c a b
      | "lt", a :: b :: _ => cmpArgsCheck c a b
      | "isnull", a :: _ => checkColumn c a
      | "istrue", a :: _ => checkColumn c a
      | "isfalse", a :: _ => checkColumn c a
      | "not", a :: _ => newCheck c a
      | _, _ => false
  | .column tbl col => checkColumn c (.column tbl col)
  | .constant _ => true

/-- `conditionChecker.checkScalarFunction`, refiner.go lines 275-294, as
the `ScalarFunction` case of `newCheck`. -/
def checkScalarFunction (c : conditionChecker) (funcName : String)
    (args : List Expression) : Bool :=
  newCheck c (.scalarFunction funcName args)

/-- The primary-key-name computation of `detachConditions`, refiner.go
lines 117-126: the name of the first column carrying the primary-key
flag, when the primary key is the handle; the empty string otherwise. -/
def pkNameOf (table : TableInfo) : String :=
  if table.PKIsHandle then
    match table.Columns.find? (fun colInfo => colInfo.priKeyFlag) with
    | some colInfo => colInfo.Name
    | none => ""
  else ""

/-- The per-predicate test of the `detachConditions` loop, refiner.go
lines 127-140: a predicate goes to the access list exactly when a
primary-key name exists and the checker accepts the predicate. -/
def detachAccessTest (table : TableInfo) (idx : Option IndexInfo)
    (colOffset : Nat) (con : Expression) : Bool :=
  if pkNameOf table == "" then false
  else newCheck ⟨table.Name, idx, colOffset, pkNameOf table⟩ con

/-- `detachConditions`, refiner.go lines 115-143. -/
def detachConditions (conditions : List Expression) (table : TableInfo)
    (idx : Option IndexInfo) (colOffset : Nat) :
    List Expression × List Expression :=
  conditions.foldl
    (fun (acc : List Expression × List Expression) con =>
      if detachAccessTest table idx colOffset con then (acc.1 ++ [con], acc.2)
      else (acc.1, acc.2 ++ [con]))
    ([], [])

/-- The operations of `rangeBuilder` (defined in another file of the
repository, outside these sources).  Each Go method reads and may set the
builder's `err` field, so every operation takes the current `err` value
and returns the updated one alongside its result.  The drivers below are
stated for every choice of these operations. -/
structure RBOps where
  build : Option Err → ExprNode → Option Err × List rangePoint
  newBuild : Option Err → Expression → Option Err × List rangePoint
  intersection :
    Option Err → List rangePoint → List rangePoint → Option Err × List rangePoint
  buildIndexRanges : Option Err → List rangePoint → Option Err × List IndexRange
  appendIndexRanges :
    Option Err → List IndexRange → List rangePoint → Option Err × List IndexRange
  buildTableRanges : Option Err → List rangePoint → Option Err × List TableRange

/-- The `IndexScan` fields read and written by the refiner. -/
structure IndexScanData where
  AccessConditions : List ExprNode
  AccessEqualCount : Nat
  Ranges : List IndexRange

/-- The `TableScan` fields read and written by the refiner. -/
structure TableScanData where
  AccessConditions : List ExprNode
  Ranges : List TableRange

/-- The `NewTableScan` fields read and written by the refiner. -/
structure NewTableScanData where
  Table : TableInfo
  AccessCondition : List Expression
  Ranges : List TableRange

/-- Placeholder expression handed to `List.getD` where the Go source
indexes `p.AccessConditions[i]`; it is never selected when
`AccessEqualCount ≤ AccessConditions.length`. -/
def dfltExpr : ExprNode := .valueExpr none

/-- One iteration of the equality loop of `buildIndexRange`, refiner.go
lines 68-71: build the points of the next condition and append them to
the ranges by cartesian expansion. -/
def eqFoldStep (ops : RBOps) (s : Option Err × List IndexRange) (cond : ExprNode) :
    Option Err × List IndexRange :=
  let (rb, point) := ops.build s.1 cond
  ops.appendIndexRanges rb s.2 point

/-- One iteration of the intersection loops of `buildIndexRange` (lines
75-77) and `buildTableRange` (lines 93-95): build the points of the next
condition and intersect them with the accumulated points.  The argument
`rb.build(...)` is evaluated before `rb.intersection` runs, as in Go. -/
def interFoldStep (ops : RBOps) (s : Option Err × List rangePoint)
    (cond : ExprNode) : Option Err × List rangePoint :=
  let (rb, built) := ops.build s.1 cond
  ops.intersection rb s.2 built

/-- `buildIndexRange`, refiner.go lines 62-84.  The Go index loops
`for i := 1; i < AccessEqualCount` and
`for i := AccessEqualCount; i < len(AccessConditions)` are folds over the
corresponding index ranges; the result pairs the updated node with the
returned `rb.err`. -/
def buildIndexRange (ops : RBOps) (p : IndexScanData) :
    IndexScanData × Option Err :=
  let n := p.AccessConditions.length
  let k := p.AccessEqualCount
  let eqState : Option Err × List IndexRange :=
    if 0 < k then
      let (rb, point) := ops.build none (p.AccessConditions.getD 0 dfltExpr)
      let (rb, ranges) := ops.buildIndexRanges rb point
      (List.range' 1 (k - 1)).foldl
        (fun s i => eqFoldStep ops s (p.AccessConditions.getD i dfltExpr))
        (rb, ranges)
    else (none, p.Ranges)
  let (rb, rangePoints) :=
    (List.range' k (n - k)).foldl
      (fun s i => interFoldStep ops s (p.AccessConditions.getD i dfltExpr))
      (eqState.1, fullRange)
  if k = 0 then
    let (rbF, ranges) := ops.buildIndexRanges rb rangePoints
    ({ p with Ranges := ranges }, rbF)
  else if k < n then
    let (rbF, ranges) := ops.appendIndexRanges rb eqState.2 rangePoints
    ({ p with Ranges := ranges }, rbF)
  else ({ p with Ranges := eqState.2 }, rb)

/-- `buildTableRange`, refiner.go lines 86-98. -/
def buildTableRange (ops : RBOps) (p : TableScanData) :
    TableScanData × Option Err :=
  match p.AccessConditions with
  | [] => ({ p with Ranges := [⟨minInt64, maxInt64⟩] }, none)
  | conds =>
      let (rb, rangePoints) :=
        conds.foldl (fun s cond => interFoldStep ops s cond)
          ((none : Option Err), fullRange)
      let (rbF, ranges) := ops.buildTableRanges rb rangePoints
      ({ p with Ranges := ranges }, rbF)

/-- The loop of `buildNewTableRange`, refiner.go lines 154-159: intersect
the points of each access condition, stopping at the first error. -/
def newTableLoop (ops : RBOps) (rb : Option Err) (pts : List rangePoint) :
    List Expression → Except Err (List rangePoint)
  | [] => .ok pts
  | cond :: rest =>
      let (rb, built) := ops.newBuild rb cond
      let (rb, pts') := ops.intersection rb pts built
      match rb with
      | some e => .error e
      | none => newTableLoop ops none pts' rest

/-- `buildNewTableRange`, refiner.go lines 145-162. -/
def buildNewTableRange (ops : RBOps) (p : NewTableScanData)
    (accessConditions : List Expression) : Except Err NewTableScanData :=
  match accessConditions with
  | [] => .ok { p with Ranges := [⟨minInt64, maxInt64⟩] }
  | conds =>
      match newTableLoop ops none fullRange conds with
      | .error e => .error e
      | .ok rangePoints =>
          let (rb, ranges) := ops.buildTableRanges none rangePoints
          match rb with
          | some e => .error e
          | none => .ok { p with AccessCondition := conds, Ranges := ranges }

/-- The plan-node kinds the refiner distinguishes, each with its child
list (`GetChildren`).  `other` covers every node kind the switch of
`refine` does not match. -/
inductive Plan where
  | indexScan (d : IndexScanData) (children : List Plan)
  | limit (lim : Nat) (children : List Plan)
  | tableScan (d : TableScanData) (children : List Plan)
  | newTableScan (d : NewTableScanData) (children : List Plan)
  | selection (Conditions : List Expression) (children : List Plan)
  | other (children : List Plan)

/-- `Plan.GetChildren`. -/
def Plan.children : Plan → List Plan
  | .indexScan _ cs => cs
  | .limit _ cs => cs
  | .tableScan _ cs => cs
  | .newTableScan _ cs => cs
  | .selection _ cs => cs
  | .other cs => cs

/-- `buildSelection`, refiner.go lines 100-112: acts only when
`GetChildByIndex(0)` is a `NewTableScan`; splits the selection's
conditions against the scan's table with the primary-key target, builds
the scan's ranges from the accessible part and keeps the residual part as
the selection's conditions. -/
def buildSelection (ops : RBOps) (conditions : List Expression)
    (children : List Plan) : Except Err (List Expression × List Plan) :=
  match children with
  | (.newTableScan d cs0) :: rest =>
      let (accessConditions, newConditions) :=
        detachConditions conditions d.Table none 0
      match buildNewTableRange ops d accessConditions with
      | .ok d' => .ok (newConditions, (.newTableScan d' cs0) :: rest)
      | .error e => .error e
  | _ => .ok (conditions, children)

/-- The switch of `refine`, refiner.go lines 41-53, applied to a node
whose children have already been refined to `cs'`. -/
def nodeOp (ops : RBOps) : Plan → List Plan → Except Err Plan
  | .indexScan d _, cs' =>
      match buildIndexRange ops d with
      | (d', none) => .ok (.indexScan d' cs')
      | (_, some e) => .error e
  | .limit _ _, cs' => .ok (.limit 0 cs')
  | .tableScan d _, cs' =>
      match buildTableRange ops d with
      | (d', none) => .ok (.tableScan d' cs')
      | (_, some e) => .error e
  | .newTableScan d _, cs' =>
      .ok (.newTableScan { d with Ranges := [⟨minInt64, maxInt64⟩] } cs')
  | .selection conds _, cs' =>
      match buildSelection ops conds cs' with
      | .ok (conds', cs'') => .ok (.selection conds' cs'')
      | .error e => .error e
  | .other _, cs' => .ok (.other cs')

/-- Combines a node with the outcome of refining its children: the first
child error aborts, otherwise the node switch runs. -/
def afterChildren (ops : RBOps) (t : Plan) (r : Except Err (List Plan)) :
    Except Err Plan :=
  match r with
  | .error e => .error e
  | .ok cs' => nodeOp ops t cs'

mutual
/-- `refine`, refiner.go lines 33-55: refine the children in order,
propagating the first error, then apply the node switch. -/
def refine (ops : RBOps) : Plan → Except Err Plan
  | .indexScan d cs => afterChildren ops (.indexScan d cs) (refineList ops cs)
  | .limit lim cs => afterChildren ops (.limit lim cs) (refineList ops cs)
  | .tableScan d cs => afterChildren ops (.tableScan d cs) (refineList ops cs)
  | .newTableScan d cs =>
      afterChildren ops (.newTableScan d cs) (refineList ops cs)
  | .selection conds cs =>
      afterChildren ops (.selection conds cs) (refineList ops cs)
  | .other cs => afterChildren ops (.other cs) (refineList ops cs)

/-- The child loop of `refine`, refiner.go lines 34-39. -/
def refineList (ops : RBOps) : List Plan → Except Err (List Plan)
  | [] => .ok []
  | c :: rest =>
      match refine ops c with
      | .error e => .error e
      | .ok c' =>
          match refineList ops rest with
          | .error e => .error e
          | .ok rest' => .ok (c' :: rest')
end

/-- `Refine`, refiner.go lines 29-31. -/
def Refine (ops : RBOps) (p : Plan) : Except Err Plan :=
  refine ops p

/-- Combines a node with the traced outcome of refining its children; the
node's own position is recorded after all child positions, and only when
its switch case succeeds. -/
def afterChildrenTr (ops : RBOps) (t : Plan) (path : List Nat)
    (r : List (List Nat) × Except Err (List Plan)) :
    List (List Nat) × Except Err Plan :=
  match r with
  | (tr, .error e) => (tr, .error e)
  | (tr, .ok cs') =>
      match nodeOp ops t cs' with
      | .error e => (tr, .error e)
      | .ok t' => (tr ++ [path], .ok t')

mutual
/-- `refine` instrumented with the list of tree positions (paths of child
indices) of the nodes whose switch case completed, in the order they
completed. -/
def refineTr (ops : RBOps) (path : List Nat) :
    Plan → List (List Nat) × Except Err Plan
  | .indexScan d cs =>
      afterChildrenTr ops (.indexScan d cs) path (refineListTr ops path 0 cs)
  | .limit lim cs =>
      afterChildrenTr ops (.limit lim cs) path (refineListTr ops path 0 cs)
  | .tableScan d cs =>
      afterChildrenTr ops (.tableScan d cs) path (refineListTr ops path 0 cs)
  | .newTableScan d cs =>
      afterChildrenTr ops (.newTableScan d cs) path (refineListTr ops path 0 cs)
  | .selection conds cs =>
      afterChildrenTr ops (.selection conds cs) path (refineListTr ops path 0 cs)
  | .other cs =>
      afterChildrenTr ops (.other cs) path (refineListTr ops path 0 cs)

/-- The child loop of `refineTr`, numbering children from `i`. -/
def refineListTr (ops : RBOps) (path : List Nat) (i : Nat) :
    List Plan → List (List Nat) × Except Err (List Plan)
  | [] => ([], .ok [])
  | c :: rest =>
      match refineTr ops (path ++ [i]) c with
      | (tr, .error e) => (tr, .error e)
      | (tr, .ok c') =>
          match refineListTr ops path (i + 1) rest with
          | (tr2, .error e) => (tr ++ tr2, .error e)
          | (tr2, .ok rest') => (tr ++ tr2, .ok (c' :: rest'))
end

mutual
/-- The positions of the nodes of a plan tree in post-order: every child
subtree in order, then the node itself. -/
def postorderPaths (path : List Nat) : Plan → List (List Nat)
  | .indexScan _ cs => postorderListPaths path 0 cs ++ [path]
  | .limit _ cs => postorderListPaths path 0 cs ++ [path]
  | .tableScan _ cs => postorderListPaths path 0 cs ++ [path]
  | .newTableScan _ cs => postorderListPaths path 0 cs ++ [path]
  | .selection _ cs => postorderListPaths path 0 cs ++ [path]
  | .other cs => postorderListPaths path 0 cs ++ [path]

/-- Post-order positions of a forest of children, numbered from `i`. -/
def postorderListPaths (path : List Nat) (i : Nat) : List Plan → List (List Nat)
  | [] => []
  | c :: rest =>
      postorderPaths (path ++ [i]) c ++ postorderListPaths path (i + 1) rest
end

/-- The six comparison operators the classifier handles. -/
inductive CmpOp where
  | ceq
  | cne
  | cge
  | cgt
  | cle
  | clt
deriving DecidableEq

/-- The `parser/opcode` constant of a comparison operator. -/
def cmpOpcode : CmpOp → Opcode
  | .ceq => .eq
  | .cne => .ne
  | .cge => .ge
  | .cgt => .gt
  | .cle => .le
  | .clt => .lt

/-- The `ast` function-name constant of a comparison operator, as matched
against `scalar.FuncName.L`. -/
def cmpFuncName : CmpOp → String
  | .ceq => "eq"
  | .cne => "ne"
  | .cge => "ge"
  | .cgt => "gt"
  | .cle => "le"
  | .clt => "lt"

/-- An atomic operand occurring on one side of a comparison or under a
test: a column reference or a literal. -/
inductive Atom where
  | acol (tblName colName : String)
  | aconst (v : Option Val)
deriving DecidableEq

/-- A predicate of the fragment that exists in both expression
representations; semantically the same predicate is rendered into each
representation by `SPred.toAst` and `SPred.toExpr`. -/
inductive SPred where
  | pand (p q : SPred)
  | por (p q : SPred)
  | pcmp (op : CmpOp) (l r : Atom)
  | pisNull (a : Atom)
  | pisTruth (a : Atom)
  | pisFalsity (a : Atom)
  | pcol (tblName colName : String)
  | pconst (v : Option Val)
  | pnot (p : SPred)

/-- The older AST rendering of an atom. -/
def Atom.toAst : Atom → ExprNode
  | .acol tbl col => .columnNameExpr tbl col
  | .aconst v => .valueExpr v

/-- The newer scalar-function rendering of an atom. -/
def Atom.toExpr : Atom → Expression
  | .acol tbl col => .column tbl col
  | .aconst v => .constant v

/-- The older AST rendering of a shared-fragment predicate.  `IS TRUE` and
`IS FALSE` both parse to an `ast.IsTruthExpr` node; a negation is an
`ast.UnaryOperationExpr` with `opcode.Not`. -/
def SPred.toAst : SPred → ExprNode
  | .pand p q => .binaryOperation .andAnd p.toAst q.toAst
  | .por p q => .binaryOperation .orOr p.toAst q.toAst
  | .pcmp op l r => .binaryOperation (cmpOpcode op) l.toAst r.toAst
  | .pisNull a => .isNullExpr a.toAst
  | .pisTruth a => .isTruthExpr a.toAst
  | .pisFalsity a => .isTruthExpr a.toAst
  | .pcol tbl col => .columnNameExpr tbl col
  | .pconst v => .valueExpr v
  | .pnot p => .unaryOperation .onot p.toAst

/-- The newer canonicalized scalar-function rendering of a
shared-fragment predicate. -/
def SPred.toExpr : SPred → Expression
  | .pand p q => .scalarFunction "and" [p.toExpr, q.toExpr]
  | .por p q => .scalarFunction "or" [p.toExpr, q.toExpr]
  | .pcmp op l r => .scalarFunction (cmpFuncName op) [l.toExpr, r.toExpr]
  | .pisNull a => .scalarFunction "isnull" [a.toExpr]
  | .pisTruth a => .scalarFunction "istrue" [a.toExpr]
  | .pisFalsity a => .scalarFunction "isfalse" [a.toExpr]
  | .pcol tbl col => .column tbl col
  | .pconst v => .constant v
  | .pnot p => .scalarFunction "not" [p.toExpr]

/-- Shared-fragment predicates whose boolean positions (top level and the
operands of AND/OR) carry no bare literal and no negation. -/
def SPred.boolGood : SPred → Bool
  | .pand p q => p.boolGood && q.boolGood
  | .por p q => p.boolGood && q.boolGood
  | .pcmp _ _ _ => true
  | .pisNull _ => true
  | .pisTruth _ => true
  | .pisFalsity _ => true
  | .pcol _ _ => true
  | .pconst _ => false
  | .pnot _ => false

/-- The range construction described by the specification for an index
scan, written with list folds over the equality prefix and the remaining
conditions: build and materialize the first equality condition, append
each further equality condition by cartesian expansion in order,
intersect the remaining conditions starting from the full range, then
materialize directly (no equality prefix), append (proper prefix), or
drop the intersected full range (all conditions are equalities). -/
def buildIndexRangeSpec (ops : RBOps) (p : IndexScanData) :
    List IndexRange × Option Err :=
  let conds := p.AccessConditions
  let k := p.AccessEqualCount
  let eqState : Option Err × List IndexRange :=
    match conds.take k with
    | [] => (none, p.Ranges)
    | c0 :: restEq =>
        let (rb, point) := ops.build none c0
        let (rb, ranges) := ops.buildIndexRanges rb point
        restEq.foldl (fun s cond => eqFoldStep ops s cond) (rb, ranges)
  let (rb, rangePoints) :=
    (conds.drop k).foldl (fun s cond => interFoldStep ops s cond)
      (eqState.1, fullRange)
  if k = 0 then
    let (rbF, ranges) := ops.buildIndexRanges rb rangePoints
    (ranges, rbF)
  else if k < conds.length then
    let (rbF, ranges) := ops.appendIndexRanges rb eqState.2 rangePoints
    (ranges, rbF)
  else (eqState.2, rb)

/-- A concrete instance of the range-builder operations, used to
instantiate the universally quantified theorems below on closed inputs. -/
def opsDemo : RBOps where
  build := fun rb _ => (rb, fullRange)
  newBuild := fun rb _ => (rb, fullRange)
  intersection := fun rb a _ => (rb, a)
  buildIndexRanges := fun rb _ => (rb, [⟨[], [], false, false⟩])
  appendIndexRanges := fun rb r _ => (rb, r ++ r)
  buildTableRanges := fun rb _ => (rb, [⟨0, 1⟩])


/-- An old-AST operand that is a plain (unwrapped) column reference to
the checker's target column. -/
def isPlainTargetColumnAst (c : conditionChecker) (e : ExprNode) : Prop :=
  (∃ tbl col, e = ExprNode.columnNameExpr tbl col) ∧ checkColumnExpr c e = true

/-- A new-representation operand that is a plain (unwrapped) column
reference to the checker's target column. -/
def isPlainTargetColumnNew (c : conditionChecker) (e : Expression) : Prop :=
  (∃ tbl col, e = Expression.column tbl col) ∧ checkColumn c e = true

/-- A new-representation operand that is a compile-time-constant
literal. -/
def isConstantExpr (e : Expression) : Prop :=
  ∃ v, e = Expression.constant v

/-! ### Helper lemmas -/

theorem detach_foldl_eq_filter (test : Expression → Bool) :
    ∀ (conds acc1 acc2 : List Expression),
      conds.foldl
        (fun (acc : List Expression × List Expression) con =>
          if test con then (acc.1 ++ [con], acc.2) else (acc.1, acc.2 ++ [con]))
        (acc1, acc2)
      = (acc1 ++ conds.filter test,
         acc2 ++ conds.filter (fun c => !test c)) := by
  intro conds
  induction conds with
  | nil => intro acc1 acc2; simp
  | cons c rest ih =>
      intro acc1 acc2
      by_cases hc : test c = true
      · simp [List.foldl_cons, hc, ih]
      · simp only [Bool.not_eq_true] at hc
        simp [List.foldl_cons, hc, ih]

theorem detachConditions_eq_filter (conds : List Expression) (table : TableInfo)
    (idx : Option IndexInfo) (off : Nat) :
    detachConditions conds table idx off
      = (conds.filter (detachAccessTest table idx off),
         conds.filter (fun c => !detachAccessTest table idx off c)) := by
  unfold detachConditions
  simpa using detach_foldl_eq_filter (detachAccessTest table idx off) conds [] []

theorem filter_length_add (p : α → Bool) :
    ∀ l : List α, (l.filter p).length + (l.filter (fun x => !p x)).length = l.length := by
  intro l
  induction l with
  | nil => simp
  | cons x rest ih =>
      by_cases hx : p x = true
      · simp [List.filter_cons, hx, Nat.succ_add, ih]
      · simp only [Bool.not_eq_true] at hx
        simp [List.filter_cons, hx, ← ih]
        omega

theorem pkNameOf_eq_empty_of_noPK (table : TableInfo)
    (h : table.PKIsHandle = false ∨ ∀ col ∈ table.Columns, col.priKeyFlag = false) :
    pkNameOf table = "" := by
  unfold pkNameOf
  rcases h with h | h
  · simp [h]
  · rcases hp : table.PKIsHandle with _ | _
    · simp
    · have : table.Columns.find? (fun colInfo => colInfo.priKeyFlag) = none := by
        apply List.find?_eq_none.mpr
        intro col hcol
        simp [h col hcol]
      simp [this]

theorem detachAccessTest_false_of_noPK (table : TableInfo)
    (idx : Option IndexInfo) (off : Nat) (con : Expression)
    (h : table.PKIsHandle = false ∨ ∀ col ∈ table.Columns, col.priKeyFlag = false) :
    detachAccessTest table idx off con = false := by
  unfold detachAccessTest
  simp [pkNameOf_eq_empty_of_noPK table h]

/-! ### Claim theorems -/

/-- Claim C4: the splitter returns the access predicates and the residual
predicates as the two complementary sublists of the input selected by the
per-predicate test: every input predicate lands in exactly one output,
nothing is duplicated, relative order is preserved in each output
(sublists of the input), and when the schema has no primary-key column
(handle flag unset, or no column carrying the primary-key flag) the
access list is empty and everything is residual. -/
theorem detachConditions_partition (conds : List Expression) (table : TableInfo)
    (idx : Option IndexInfo) (off : Nat) :
    (detachConditions conds table idx off).1
        = conds.filter (detachAccessTest table idx off) ∧
    (detachConditions conds table idx off).2
        = conds.filter (fun c => !detachAccessTest table idx off c) ∧
    (∀ x, x ∈ conds ↔
      x ∈ (detachConditions conds table idx off).1 ∨
      x ∈ (detachConditions conds table idx off).2) ∧
    (∀ x, x ∈ (detachConditions conds table idx off).1 →
      x ∉ (detachConditions conds table idx off).2) ∧
    (detachConditions conds table idx off).1.Sublist conds ∧
    (detachConditions conds table idx off).2.Sublist conds ∧
    (detachConditions conds table idx off).1.length
      + (detachConditions conds table idx off).2.length = conds.length ∧
    ((table.PKIsHandle = false ∨ ∀ col ∈ table.Columns, col.priKeyFlag = false) →
      (detachConditions conds table idx off).1 = [] ∧
      (detachConditions conds table idx off).2 = conds) := by
  rw [detachConditions_eq_filter]
  refine ⟨rfl, rfl, ?_, ?_, List.filter_sublist conds, List.filter_sublist conds,
    filter_length_add _ conds, ?_⟩
  · intro x
    constructor
    · intro hx
      by_cases hp : detachAccessTest table idx off x = true
      · exact Or.inl (List.mem_filter.mpr ⟨hx, hp⟩)
      · refine Or.inr (List.mem_filter.mpr ⟨hx, ?_⟩)
        simp only [Bool.not_eq_true] at hp
        simp [hp]
    · rintro (hx | hx) <;> exact (List.mem_filter.mp hx).1
  · intro x hx hx2
    have h1 := (List.mem_filter.mp hx).2
    have h2 := (List.mem_filter.mp hx2).2
    rw [h1] at h2
    simp at h2
  · intro hnp
    have hall : ∀ con, detachAccessTest table idx off con = false :=
      fun con => detachAccessTest_false_of_noPK table idx off con hnp
    constructor
    · simp [List.filter_eq_nil_iff, hall]
    · exact List.filter_eq_self.mpr (fun a _ => by simp [hall a])

/-- Witness for C4: on a schema whose primary key is not the handle, the
splitter leaves every predicate residual. -/
theorem detachConditions_partition_witness :
    (detachConditions [Expression.column "t" "a"]
        ⟨"t", false, [⟨"a", true⟩]⟩ none 0).1 = [] ∧
    (detachConditions [Expression.column "t" "a"]
        ⟨"t", false, [⟨"a", true⟩]⟩ none 0).2 = [Expression.column "t" "a"] :=
  (detachConditions_partition [Expression.column "t" "a"]
      ⟨"t", false, [⟨"a", true⟩]⟩ none 0).2.2.2.2.2.2.2 (Or.inl rfl)

/-- Claim C9: a table-scan node with an empty access-condition list gets
the single full range `(MinInt64, MaxInt64)`, in both table-scan
builders. -/
theorem emptyAccess_full_range (ops : RBOps) (p : TableScanData)
    (q : NewTableScanData) (h : p.AccessConditions = []) :
    buildTableRange ops p = ({ p with Ranges := [⟨minInt64, maxInt64⟩] }, none) ∧
    buildNewTableRange ops q [] = .ok { q with Ranges := [⟨minInt64, maxInt64⟩] } := by
  constructor
  · rcases p with ⟨ac, r⟩
    simp only at h
    subst h
    rfl
  · rfl

/-- Witness for C9 at concrete scan nodes. -/
theorem emptyAccess_full_range_witness :
    buildTableRange opsDemo ⟨[], []⟩ = (⟨[], [⟨minInt64, maxInt64⟩]⟩, none) ∧
    buildNewTableRange opsDemo ⟨⟨"t", true, []⟩, [], []⟩ []
      = .ok ⟨⟨"t", true, []⟩, [], [⟨minInt64, maxInt64⟩]⟩ :=
  emptyAccess_full_range opsDemo ⟨[], []⟩ ⟨⟨"t", true, []⟩, [], []⟩ rfl

/-- Claim C10, failing input: the predicate `a LIKE ''` on table `t` with
primary-key column `a` satisfies every guard before the first-character
access — not negated, tested expression is the target column, pattern is
a pre-evaluable literal whose value converts to the (empty) string — and
the classifier then performs the out-of-bounds byte access
`patternStr[0]`, modelled as the `none` (panic) result: the classifier is
not total on this input. -/
theorem check_likeEmptyPattern_panics :
    checkColumnExpr ⟨"t", none, 0, "a"⟩ (.columnNameExpr "t" "a") = true ∧
    isPreEvaluable (ExprNode.valueExpr (some (.vstr ""))) = true ∧
    typesToString (Val.vstr "") = .ok "" ∧
    check ⟨"t", none, 0, "a"⟩
      (.patternLike (.columnNameExpr "t" "a") (.valueExpr (some (.vstr ""))) false)
      = none :=
  ⟨rfl, rfl, rfl, rfl⟩

/-- Claim C8: for a selection directly above a `NewTableScan`, the
refiner splits the selection's conditions against the scan's table with
the primary-key target, hands exactly the accessible sublist to the
scan's range builder, replaces the selection's conditions with exactly
the residual sublist, and propagates a range-building error. -/
theorem buildSelection_detaches (ops : RBOps) (conds : List Expression)
    (d : NewTableScanData) (cs0 rest : List Plan) :
    buildSelection ops conds ((Plan.newTableScan d cs0) :: rest)
      = (buildNewTableRange ops d
            (conds.filter (detachAccessTest d.Table none 0))).map
          (fun d' => (conds.filter (fun c => !detachAccessTest d.Table none 0 c),
                      (Plan.newTableScan d' cs0) :: rest)) := by
  unfold buildSelection
  simp only [detachConditions_eq_filter]
  cases hb : buildNewTableRange ops d
      (conds.filter (detachAccessTest d.Table none 0)) <;>
    simp [hb, Except.map]

theorem checkColumnExpr_col_iff (c : conditionChecker) (e : ExprNode) :
    checkColumnExpr c e = true ↔ isPlainTargetColumnAst c e := by
  constructor
  · intro h
    refine ⟨?_, h⟩
    cases e <;> simp [checkColumnExpr] at h ⊢
  · rintro ⟨-, h⟩
    exact h

theorem preEval_false_of_plainAst (c : conditionChecker) (e : ExprNode)
    (h : isPlainTargetColumnAst c e) : isPreEvaluable e = false := by
  rcases h with ⟨⟨tbl, col, rfl⟩, -⟩
  rfl

theorem checkColumnExpr_false_of_preEval (c : conditionChecker) (e : ExprNode)
    (h : isPreEvaluable e = true) : checkColumnExpr c e = false := by
  cases e <;> first
    | rfl
    | simp [isPreEvaluable] at h

theorem checkColumn_col_iff (c : conditionChecker) (e : Expression) :
    checkColumn c e = true ↔ isPlainTargetColumnNew c e := by
  constructor
  · intro h
    refine ⟨?_, h⟩
    cases e <;> simp [checkColumn] at h ⊢
  · rintro ⟨-, h⟩
    exact h

theorem notConst_of_plainNew (c : conditionChecker) (e : Expression)
    (h : isPlainTargetColumnNew c e) : ¬ isConstantExpr e := by
  rcases h with ⟨⟨tbl, col, rfl⟩, -⟩
  rintro ⟨v, hv⟩
  cases hv

theorem checkColumn_false_of_const (c : conditionChecker) (e : Expression)
    (h : isConstantExpr e) : checkColumn c e = false := by
  rcases h with ⟨v, rfl⟩
  rfl

theorem check_cmp (c : conditionChecker) (op : CmpOp) (l r : ExprNode) :
    check c (.binaryOperation (cmpOpcode op) l r)
      = (if isPreEvaluable l then some (checkColumnExpr c r)
         else if isPreEvaluable r then some (checkColumnExpr c l)
         else some false) := by
  cases op <;> rfl

theorem newCheck_cmp (c : conditionChecker) (op : CmpOp) (a b : Expression)
    (restArgs : List Expression) :
    newCheck c (.scalarFunction (cmpFuncName op) (a :: b :: restArgs))
      = cmpArgsCheck c a b := by
  cases op <;> rfl

/-- Claim C2: a binary comparison (`=`,`≠`,`≥`,`>`,`≤`,`<`) is accepted
by the classifier iff exactly one operand side is a
compile-time-constant literal (pre-evaluable node in the old AST form, a
`Constant` in the new form) and the other side is a plain, unwrapped
column reference to the target column — so column-to-column and
literal-to-literal comparisons are rejected — in both predicate
representations. -/
theorem cmp_accessible_iff (c : conditionChecker) (op : CmpOp)
    (l r : ExprNode) (a b : Expression) :
    (check c (.binaryOperation (cmpOpcode op) l r) = some true ↔
      (isPreEvaluable l = true ∧ isPreEvaluable r = false ∧
        isPlainTargetColumnAst c r) ∨
      (isPreEvaluable r = true ∧ isPreEvaluable l = false ∧
        isPlainTargetColumnAst c l)) ∧
    (newCheck c (.scalarFunction (cmpFuncName op) [a, b]) = true ↔
      (isConstantExpr a ∧ ¬ isConstantExpr b ∧ isPlainTargetColumnNew c b) ∨
      (isConstantExpr b ∧ ¬ isConstantExpr a ∧ isPlainTargetColumnNew c a)) := by
  constructor
  · rw [check_cmp]
    by_cases hl : isPreEvaluable l = true
    · rw [if_pos hl]
      constructor
      · intro h
        have hp := (checkColumnExpr_col_iff c r).mp (Option.some_inj.mp h)
        exact Or.inl ⟨hl, preEval_false_of_plainAst c r hp, hp⟩
      · rintro (⟨-, -, hp⟩ | ⟨-, hlf, -⟩)
        · exact Option.some_inj.mpr ((checkColumnExpr_col_iff c r).mpr hp)
        · rw [hl] at hlf
          simp at hlf
    · rw [if_neg hl]
      by_cases hr : isPreEvaluable r = true
      · rw [if_pos hr]
        have hl' : isPreEvaluable l = false := by
          revert hl
          cases isPreEvaluable l <;> simp
        constructor
        · intro h
          have hp := (checkColumnExpr_col_iff c l).mp (Option.some_inj.mp h)
          exact Or.inr ⟨hr, hl', hp⟩
        · rintro (⟨hrt, -, -⟩ | ⟨-, -, hp⟩)
          · exact absurd hrt hl
          · exact Option.some_inj.mpr ((checkColumnExpr_col_iff c l).mpr hp)
      · rw [if_neg hr]
        constructor
        · intro h
          simp at h
        · rintro (⟨hx, -, -⟩ | ⟨hx, -, -⟩)
          · exact absurd hx hl
          · exact absurd hx hr
  · rw [newCheck_cmp]
    rcases a with ⟨fa, argsa⟩ | ⟨ta, na⟩ | va
    · rcases b with ⟨fb, argsb⟩ | ⟨tb, nb⟩ | vb <;>
        simp [cmpArgsCheck, isConstantExpr, isPlainTargetColumnNew, checkColumn]
    · rcases b with ⟨fb, argsb⟩ | ⟨tb, nb⟩ | vb
      · simp [cmpArgsCheck, isConstantExpr, isPlainTargetColumnNew, checkColumn]
      · simp [cmpArgsCheck, isConstantExpr, isPlainTargetColumnNew, checkColumn]
      · constructor
        · intro h
          refine Or.inr ⟨⟨vb, rfl⟩, ?_, (checkColumn_col_iff c _).mp h⟩
          rintro ⟨v, hv⟩
          cases hv
        · rintro (⟨⟨v, hv⟩, -, -⟩ | ⟨-, -, hp⟩)
          · cases hv
          · exact (checkColumn_col_iff c _).mpr hp
    · constructor
      · intro h
        have hp := (checkColumn_col_iff c b).mp h
        exact Or.inl ⟨⟨va, rfl⟩, notConst_of_plainNew c b hp, hp⟩
      · rintro (⟨-, -, hp⟩ | ⟨-, hna, -⟩)
        · exact (checkColumn_col_iff c b).mpr hp
        · exact absurd ⟨va, rfl⟩ hna

/-- Claim C7: a LIKE predicate is accepted by the classifier iff it is
not negated, its tested expression is a plain reference to the target
column, its pattern is a compile-time literal whose value converts to a
string, and that string has a first character which is not a wildcard
(the wildcard characters being `%` and `.`, as in the source). -/
theorem like_accessible_iff (c : conditionChecker) (ex pattern : ExprNode)
    (neg : Bool) :
    check c (.patternLike ex pattern neg) = some true ↔
      (neg = false ∧ checkColumnExpr c ex = true ∧
       isPreEvaluable pattern = true ∧
       ∃ v s ch rest, getValue pattern = some v ∧ typesToString v = .ok s ∧
         s.data = ch :: rest ∧ ch ≠ '%' ∧ ch ≠ '.') := by
  cases neg
  case true => simp [check]
  case false =>
    by_cases hce : checkColumnExpr c ex = true
    case neg =>
      have hce' : checkColumnExpr c ex = false := by
        revert hce
        cases checkColumnExpr c ex <;> simp
      simp [check, hce']
    case pos =>
      by_cases hpe : isPreEvaluable pattern = true
      case neg =>
        have hpe' : isPreEvaluable pattern = false := by
          revert hpe
          cases isPreEvaluable pattern <;> simp
        simp [check, hce, hpe']
      case pos =>
        cases hv : getValue pattern with
        | none => simp [check, hce, hpe, hv]
        | some v =>
          cases hs : typesToString v with
          | error u => simp [check, hce, hpe, hv, hs]
          | ok s =>
            cases hd : s.data with
            | nil => simp [check, hce, hpe, hv, hs, hd]
            | cons ch rest =>
                simp [check, hce, hpe, hv, hs, hd, bne_iff_ne]

/-- Counterexample for C6: in the new representation a top-level `NOT`
over the bare target column is accepted by the classifier, although it is
a negation and not one of the explicitly allowed negation-free forms, so
the claim as stated is false. -/
theorem negation_accepted_counterexample :
    newCheck ⟨"t", none, 0, "a"⟩
      (.scalarFunction "not" [.column "t" "a"]) = true := rfl

/-- Claim C6 as amended: in the old AST representation every top-level
negation node is rejected by the classifier; in the new representation a
top-level `UnaryNot` scalar function is instead classified exactly as its
operand is. -/
theorem negation_classifier (c : conditionChecker) (op : Opcode)
    (ex : ExprNode) (a : Expression) (restArgs : List Expression) :
    check c (.unaryOperation op ex) = some false ∧
    newCheck c (.scalarFunction "not" (a :: restArgs)) = newCheck c a :=
  ⟨rfl, rfl⟩

theorem check_and (c : conditionChecker) (l r : ExprNode) :
    check c (.binaryOperation .andAnd l r)
      = (match check c l with
         | none => none
         | some false => some false
         | some true => check c r) := rfl

theorem check_or (c : conditionChecker) (l r : ExprNode) :
    check c (.binaryOperation .orOr l r)
      = (match check c l with
         | none => none
         | some false => some false
         | some true => check c r) := rfl

theorem newCheck_and (c : conditionChecker) (a b : Expression)
    (restArgs : List Expression) :
    newCheck c (.scalarFunction "and" (a :: b :: restArgs))
      = (newCheck c a && newCheck c b) := rfl

theorem newCheck_or (c : conditionChecker) (a b : Expression)
    (restArgs : List Expression) :
    newCheck c (.scalarFunction "or" (a :: b :: restArgs))
      = (newCheck c a && newCheck c b) := rfl

/-- Claim C1 as amended: for every target and every shared-fragment
predicate built from AND, OR, comparisons over constant/column atoms,
IS NULL, IS TRUE, IS FALSE and plain column references — i.e. carrying no
bare literal and no negation at a boolean position — the old classifier
and the new classifier decide identically (and the old one does not
panic).  Bare literals and negations are excluded: there the two
classifiers disagree, see the counterexample. -/
theorem classifier_agree (c : conditionChecker) (p : SPred)
    (h : p.boolGood = true) :
    check c p.toAst = some (newCheck c p.toExpr) := by
  induction p with
  | pand p q ihp ihq =>
      simp only [SPred.boolGood, Bool.and_eq_true] at h
      show check c (.binaryOperation .andAnd p.toAst q.toAst)
        = some (newCheck c (.scalarFunction "and" [p.toExpr, q.toExpr]))
      rw [check_and, ihp h.1, ihq h.2, newCheck_and]
      cases newCheck c p.toExpr <;> cases newCheck c q.toExpr <;> rfl
  | por p q ihp ihq =>
      simp only [SPred.boolGood, Bool.and_eq_true] at h
      show check c (.binaryOperation .orOr p.toAst q.toAst)
        = some (newCheck c (.scalarFunction "or" [p.toExpr, q.toExpr]))
      rw [check_or, ihp h.1, ihq h.2, newCheck_or]
      cases newCheck c p.toExpr <;> cases newCheck c q.toExpr <;> rfl
  | pcmp op l r =>
      show check c (.binaryOperation (cmpOpcode op) l.toAst r.toAst)
        = some (newCheck c (.scalarFunction (cmpFuncName op) [l.toExpr, r.toExpr]))
      rw [check_cmp, newCheck_cmp]
      cases l <;> cases r <;> rfl
  | pisNull a => cases a <;> rfl
  | pisTruth a => cases a <;> rfl
  | pisFalsity a => cases a <;> rfl
  | pcol tbl col => rfl
  | pconst v => simp [SPred.boolGood] at h
  | pnot p ih => simp [SPred.boolGood] at h

/-- Counterexample for C1: the bare literal predicate `1` and the negated
column predicate `NOT a` each exist in both representations, yet the old
classifier rejects them while the new classifier accepts them, so the two
decision procedures are not equal on the shared fragment. -/
theorem representations_disagree_counterexample :
    (check ⟨"t", none, 0, "a"⟩ (SPred.pconst (some (.vint 1))).toAst
        = some false ∧
     newCheck ⟨"t", none, 0, "a"⟩ (SPred.pconst (some (.vint 1))).toExpr
        = true) ∧
    (check ⟨"t", none, 0, "a"⟩ (SPred.pnot (.pcol "t" "a")).toAst
        = some false ∧
     newCheck ⟨"t", none, 0, "a"⟩ (SPred.pnot (.pcol "t" "a")).toExpr
        = true) :=
  ⟨⟨rfl, rfl⟩, ⟨rfl, rfl⟩⟩

/-- Witness for C1 as amended, at the predicate `5 = a` against the
primary-key target `a` of table `t`. -/
theorem classifier_agree_witness :
    (SPred.pcmp .ceq (.aconst (some (.vint 5))) (.acol "t" "a")).boolGood
      = true ∧
    check ⟨"t", none, 0, "a"⟩
        (SPred.pcmp .ceq (.aconst (some (.vint 5))) (.acol "t" "a")).toAst
      = some (newCheck ⟨"t", none, 0, "a"⟩
          (SPred.pcmp .ceq (.aconst (some (.vint 5))) (.acol "t" "a")).toExpr) :=
  ⟨rfl, classifier_agree ⟨"t", none, 0, "a"⟩ _ rfl⟩

theorem foldl_range'_getD {α β : Type} (f : β → α → β) (l : List α) (d : α) :
    ∀ (b a : Nat) (init : β), a + b ≤ l.length →
      (List.range' a b).foldl (fun s i => f s (l.getD i d)) init
        = ((l.drop a).take b).foldl f init := by
  intro b
  induction b with
  | zero => intro a init h; simp
  | succ m ih =>
      intro a init h
      have ha : a < l.length := by omega
      rw [List.range'_succ, List.drop_eq_getElem_cons ha, List.take_succ_cons,
        List.foldl_cons, List.foldl_cons, List.getD_eq_getElem l d ha]
      exact ih (a + 1) (f init l[a]) (by omega)

theorem take_eq_head_cons {α : Type} (l : List α) (d : α) (k : Nat)
    (hk : 0 < k) (hl : 0 < l.length) :
    l.take k = l.getD 0 d :: (l.drop 1).take (k - 1) := by
  rcases l with _ | ⟨c, cs⟩
  · simp at hl
  · rcases k with _ | m
    · omega
    · simp [List.take_succ_cons, List.getD]

/-- Claim C3: for an index scan with `n` access conditions and equality
prefix `k ≤ n`, `buildIndexRange` computes exactly the construction the
specification describes — equality prefix built by `build` plus cartesian
`appendIndexRanges` in order, remaining conditions intersected from the
full range, and the final three-way combination (materialize directly
when `k = 0`, append when `0 < k < n`, drop the intersected full range
when `k = n`) — for every choice of range-builder operations. -/
theorem buildIndexRange_matches_spec (ops : RBOps) (p : IndexScanData)
    (h : p.AccessEqualCount ≤ p.AccessConditions.length) :
    buildIndexRange ops p
      = ({ p with Ranges := (buildIndexRangeSpec ops p).1 },
         (buildIndexRangeSpec ops p).2) := by
  unfold buildIndexRange buildIndexRangeSpec
  dsimp only
  by_cases hk : p.AccessEqualCount = 0
  · simp only [hk]
    rw [foldl_range'_getD (interFoldStep ops) p.AccessConditions dfltExpr
      (p.AccessConditions.length - 0) 0 _ (by omega)]
    simp
  · have hkpos : 0 < p.AccessEqualCount := Nat.pos_of_ne_zero hk
    have hlen : 0 < p.AccessConditions.length := by omega
    rw [take_eq_head_cons p.AccessConditions dfltExpr p.AccessEqualCount hkpos hlen]
    simp only [if_pos hkpos]
    rw [foldl_range'_getD (eqFoldStep ops) p.AccessConditions dfltExpr
      (p.AccessEqualCount - 1) 1 _ (by omega)]
    rw [foldl_range'_getD (interFoldStep ops) p.AccessConditions dfltExpr
      (p.AccessConditions.length - p.AccessEqualCount) p.AccessEqualCount _
      (by omega)]
    have hseg :
        (p.AccessConditions.drop p.AccessEqualCount).take
            (p.AccessConditions.length - p.AccessEqualCount)
          = p.AccessConditions.drop p.AccessEqualCount :=
      List.take_of_length_le (le_of_eq (List.length_drop _ _))
    rw [hseg]
    simp only [if_neg hk]
    by_cases hkn : p.AccessEqualCount < p.AccessConditions.length
    · simp only [if_pos hkn]
    · simp only [if_neg hkn]

/-- Witness for C3 at a two-condition scan with a one-column equality
prefix. -/
theorem buildIndexRange_matches_spec_witness :
    buildIndexRange opsDemo
        ⟨[.columnNameExpr "t" "a", .columnNameExpr "t" "b"], 1, []⟩
      = ({ AccessConditions := [.columnNameExpr "t" "a", .columnNameExpr "t" "b"],
           AccessEqualCount := 1,
           Ranges :=
             (buildIndexRangeSpec opsDemo
               ⟨[.columnNameExpr "t" "a", .columnNameExpr "t" "b"], 1, []⟩).1 },
         (buildIndexRangeSpec opsDemo
           ⟨[.columnNameExpr "t" "a", .columnNameExpr "t" "b"], 1, []⟩).2) :=
  buildIndexRange_matches_spec opsDemo
    ⟨[.columnNameExpr "t" "a", .columnNameExpr "t" "b"], 1, []⟩ (by decide)

theorem afterChildrenTr_snd (ops : RBOps) (t : Plan) (path : List Nat)
    (r : List (List Nat) × Except Err (List Plan)) :
    (afterChildrenTr ops t path r).2 = afterChildren ops t r.2 := by
  rcases r with ⟨tr, r2⟩
  cases r2 with
  | error e => rfl
  | ok cs' =>
      simp only [afterChildrenTr, afterChildren]
      cases nodeOp ops t cs' <;> rfl

mutual
theorem refineTr_snd (ops : RBOps) (path : List Nat) (t : Plan) :
    (refineTr ops path t).2 = refine ops t := by
  cases t with
  | indexScan d cs =>
      rw [refineTr, refine, afterChildrenTr_snd, refineListTr_snd ops path 0 cs]
  | limit lim cs =>
      rw [refineTr, refine, afterChildrenTr_snd, refineListTr_snd ops path 0 cs]
  | tableScan d cs =>
      rw [refineTr, refine, afterChildrenTr_snd, refineListTr_snd ops path 0 cs]
  | newTableScan d cs =>
      rw [refineTr, refine, afterChildrenTr_snd, refineListTr_snd ops path 0 cs]
  | selection conds cs =>
      rw [refineTr, refine, afterChildrenTr_snd, refineListTr_snd ops path 0 cs]
  | other cs =>
      rw [refineTr, refine, afterChildrenTr_snd, refineListTr_snd ops path 0 cs]

theorem refineListTr_snd (ops : RBOps) (path : List Nat) (i : Nat)
    (l : List Plan) :
    (refineListTr ops path i l).2 = refineList ops l := by
  cases l with
  | nil => rfl
  | cons c rest =>
      rw [refineListTr, refineList, ← refineTr_snd ops (path ++ [i]) c]
      rcases hc : refineTr ops (path ++ [i]) c with ⟨tr, rc⟩
      cases rc with
      | error e => rfl
      | ok c' =>
          rw [← refineListTr_snd ops path (i + 1) rest]
          rcases hr : refineListTr ops path (i + 1) rest with ⟨tr2, r2⟩
          cases r2 <;> rfl
end

theorem refineTrace_node (ops : RBOps) (path : List Nat) (t : Plan)
    (cs : List Plan)
    (heq : refineTr ops path t
            = afterChildrenTr ops t path (refineListTr ops path 0 cs))
    (hpost : postorderPaths path t = postorderListPaths path 0 cs ++ [path])
    (IH : (∀ l', (refineListTr ops path 0 cs).2 = .ok l' →
            (refineListTr ops path 0 cs).1 = postorderListPaths path 0 cs) ∧
          (∀ e, (refineListTr ops path 0 cs).2 = .error e →
            ∃ rem, rem ≠ [] ∧ (refineListTr ops path 0 cs).1 ++ rem
              = postorderListPaths path 0 cs)) :
    (∀ t', (refineTr ops path t).2 = .ok t' →
        (refineTr ops path t).1 = postorderPaths path t) ∧
    (∀ e, (refineTr ops path t).2 = .error e →
        ∃ rem, rem ≠ [] ∧ (refineTr ops path t).1 ++ rem
          = postorderPaths path t) := by
  rw [heq, hpost]
  rcases hr : refineListTr ops path 0 cs with ⟨tr, r⟩
  rw [hr] at IH
  dsimp only at IH
  cases r with
  | error e =>
      dsimp only [afterChildrenTr]
      refine ⟨fun t' h => (by cases h), fun e' h => ?_⟩
      obtain ⟨rm, hne, hm⟩ := IH.2 e rfl
      refine ⟨rm ++ [path], ?_, ?_⟩
      · rcases rm with _ | ⟨x, xs⟩
        · exact absurd rfl hne
        · simp
      · rw [← List.append_assoc, hm]
  | ok cs' =>
      dsimp only [afterChildrenTr]
      cases hn : nodeOp ops t cs' with
      | error e =>
          dsimp only
          refine ⟨fun t' h => (by cases h), fun e' h => ?_⟩
          refine ⟨[path], (by simp), ?_⟩
          rw [IH.1 cs' rfl]
      | ok t'' =>
          dsimp only
          refine ⟨fun t' h => ?_, fun e' h => by cases h⟩
          rw [IH.1 cs' rfl]

mutual
theorem refineTr_trace (ops : RBOps) (path : List Nat) (t : Plan) :
    (∀ t', (refineTr ops path t).2 = .ok t' →
        (refineTr ops path t).1 = postorderPaths path t) ∧
    (∀ e, (refineTr ops path t).2 = .error e →
        ∃ rem, rem ≠ [] ∧ (refineTr ops path t).1 ++ rem
          = postorderPaths path t) := by
  cases t with
  | indexScan d cs =>
      exact refineTrace_node ops path _ cs rfl rfl
        (refineListTr_trace ops path 0 cs)
  | limit lim cs =>
      exact refineTrace_node ops path _ cs rfl rfl
        (refineListTr_trace ops path 0 cs)
  | tableScan d cs =>
      exact refineTrace_node ops path _ cs rfl rfl
        (refineListTr_trace ops path 0 cs)
  | newTableScan d cs =>
      exact refineTrace_node ops path _ cs rfl rfl
        (refineListTr_trace ops path 0 cs)
  | selection conds cs =>
      exact refineTrace_node ops path _ cs rfl rfl
        (refineListTr_trace ops path 0 cs)
  | other cs =>
      exact refineTrace_node ops path _ cs rfl rfl
        (refineListTr_trace ops path 0 cs)

theorem refineListTr_trace (ops : RBOps) (path : List Nat) (i : Nat)
    (l : List Plan) :
    (∀ l', (refineListTr ops path i l).2 = .ok l' →
        (refineListTr ops path i l).1 = postorderListPaths path i l) ∧
    (∀ e, (refineListTr ops path i l).2 = .error e →
        ∃ rem, rem ≠ [] ∧ (refineListTr ops path i l).1 ++ rem
          = postorderListPaths path i l) := by
  cases l with
  | nil => exact ⟨fun l' h => rfl, fun e h => (by cases h)⟩
  | cons c rest =>
      have IHc := refineTr_trace ops (path ++ [i]) c
      rcases hc : refineTr ops (path ++ [i]) c with ⟨trc, rc⟩
      rw [hc] at IHc
      dsimp only at IHc
      rw [refineListTr, hc, postorderListPaths]
      cases rc with
      | error e =>
          dsimp only
          refine ⟨fun l' h => (by cases h), fun e' h => ?_⟩
          obtain ⟨rm, hne, hm⟩ := IHc.2 e rfl
          refine ⟨rm ++ postorderListPaths path (i + 1) rest, ?_, ?_⟩
          · rcases rm with _ | ⟨x, xs⟩
            · exact absurd rfl hne
            · simp
          · rw [← List.append_assoc, hm]
      | ok c' =>
          have IHr := refineListTr_trace ops path (i + 1) rest
          rcases hrr : refineListTr ops path (i + 1) rest with ⟨tr2, r2⟩
          rw [hrr] at IHr
          dsimp only at IHr
          cases r2 with
          | error e =>
              dsimp only
              refine ⟨fun l' h => (by cases h), fun e' h => ?_⟩
              obtain ⟨rm, hne, hm⟩ := IHr.2 e rfl
              refine ⟨rm, hne, ?_⟩
              rw [List.append_assoc, hm, IHc.1 c' rfl]
          | ok rest' =>
              dsimp only
              refine ⟨fun l' h => ?_, fun e' h => by cases h⟩
              rw [IHc.1 c' rfl, IHr.1 rest' rfl]
end

/-- Claim C5: `Refine` agrees with the position-instrumented refinement,
whose trace lists children before their parent; on success the trace is
exactly the post-order listing of the whole tree, and on failure the
trace is a proper prefix of that listing — the first failing node and
everything after it in post-order is never refined — while the error is
returned to the caller. -/
theorem refine_postorder_abort (ops : RBOps) (t : Plan) :
    Refine ops t = (refineTr ops [] t).2 ∧
    (∀ t', Refine ops t = .ok t' →
        (refineTr ops [] t).1 = postorderPaths [] t) ∧
    (∀ e, Refine ops t = .error e →
        ∃ rem, rem ≠ [] ∧
          (refineTr ops [] t).1 ++ rem = postorderPaths [] t) := by
  have hsnd := refineTr_snd ops [] t
  have htr := refineTr_trace ops [] t
  refine ⟨hsnd.symm, ?_, ?_⟩
  · intro t' h
    exact htr.1 t' (hsnd.trans h)
  · intro e h
    exact htr.2 e (hsnd.trans h)

/-- Witness for C5 at a two-node tree that refines successfully: the
trace is the full post-order listing. -/
theorem refine_postorder_abort_witness :
    (refineTr opsDemo [] (.other [.other []])).1
      = postorderPaths [] (.other [.other []]) :=
  (refine_postorder_abort opsDemo (.other [.other []])).2.1
    (.other [.other []]) rfl
